import Mathlib

/-!
Verification of `fix_tables.py`, a markdown table code-span space normalizer.

The program reads a markdown file, and on every line whose stripped form
starts with a pipe character it rewrites each backtick-delimited code span,
replacing ASCII spaces by non-breaking spaces except for a single preserved
space immediately before the first hash character of the span.

Lines are modelled as `List Char`.  Each Python function is translated into
a Lean function of the same name; string slicing becomes `List.take` /
`List.drop`, `str.replace` becomes `List.map`, and the regex substitution
`re.sub` over the span pattern becomes an explicit left-to-right scan.
-/

/-- The non-breaking space character U+00A0. -/
def nbsp : Char := '\u00A0'

/-- The backtick character U+0060 (code-span delimiter). -/
def btick : Char := Char.ofNat 96

/-- Python `s.replace(' ', u00A0)` on a list of characters: every ASCII
space becomes a non-breaking space, all other characters are unchanged. -/
def nbspAll (l : List Char) : List Char :=
  l.map (fun c => if c = ' ' then nbsp else c)

/-- Python `s.find('#')` restricted to the case where a hash is present:
the index of the first hash character. -/
def hashIdx : List Char → Nat
  | [] => 0
  | c :: t => if c = '#' then 0 else hashIdx t + 1

/-- Translation of `process_code_in_table` from `fix_tables.py` (lines 12-43):
if the content has a hash, the first hash is found; when it is preceded by a
space that space is kept as an ASCII space and both sides are NBSP-converted;
otherwise the two halves are NBSP-converted and concatenated; with no hash the
whole content is NBSP-converted. -/
def process_code_in_table (l : List Char) : List Char :=
  if '#' ∈ l then
    if hashIdx l > 0 ∧ l[hashIdx l - 1]? = some ' ' then
      nbspAll (l.take (hashIdx l - 1)) ++ ' ' :: nbspAll (l.drop (hashIdx l))
    else
      nbspAll (l.take (hashIdx l)) ++ nbspAll (l.drop (hashIdx l))
  else nbspAll l

/-- Space Rewriter as worded in the specification, section 4.3: `hash_pos`
is "the index of the first hash" obtained by a first-index search, the three
branches follow the spec text.  Used only to compare with the translation of
the source, `process_code_in_table`. -/
def specSpaceRewriter (content : List Char) : List Char :=
  match content.findIdx? (fun c => c == '#') with
  | none => content.map (fun c => if c = ' ' then nbsp else c)
  | some hash_pos =>
    if 0 < hash_pos ∧ content[hash_pos - 1]? = some ' ' then
      (content.take (hash_pos - 1)).map (fun c => if c = ' ' then nbsp else c)
        ++ ' ' :: (content.drop hash_pos).map (fun c => if c = ' ' then nbsp else c)
    else
      (content.take hash_pos).map (fun c => if c = ' ' then nbsp else c)
        ++ (content.drop hash_pos).map (fun c => if c = ' ' then nbsp else c)

example : process_code_in_table "foo bar # baz".data =
    ['f','o','o',nbsp,'b','a','r',' ','#',nbsp,'b','a','z'] := by decide

example : process_code_in_table "a # b # c".data =
    ['a',' ','#',nbsp,'b',nbsp,'#',nbsp,'c'] := by decide

example : process_code_in_table "foo#bar baz".data =
    ['f','o','o','#','b','a','r',nbsp,'b','a','z'] := by decide

example : process_code_in_table "x = 1 # comment".data =
    ['x',nbsp,'=',nbsp,'1',' ','#',nbsp,'c','o','m','m','e','n','t'] := by decide

example : specSpaceRewriter "a # b # c".data = process_code_in_table "a # b # c".data := by decide

/-- Helper for the scan: split a list at its first backtick, returning the
characters before it and the characters after it, or `none` when the list
contains no backtick.  This captures the regex engine looking for the run
of non-backtick characters followed by the closing backtick. -/
def splitBt : List Char → Option (List Char × List Char)
  | [] => none
  | c :: t =>
    if c = btick then some ([], t)
    else
      match splitBt t with
      | none => none
      | some (a, b) => some (c :: a, b)

theorem splitBt_length {l a b : List Char} (h : splitBt l = some (a, b)) :
    a.length + b.length + 1 = l.length := by
  induction l generalizing a b with
  | nil => simp [splitBt] at h
  | cons c t ih =>
    by_cases hc : c = btick
    · simp [splitBt, hc] at h
      obtain ⟨rfl, rfl⟩ := h
      simp
    · simp only [splitBt, if_neg hc] at h
      cases hs : splitBt t with
      | none => rw [hs] at h; simp at h
      | some p =>
        rw [hs] at h
        obtain ⟨a', b'⟩ := p
        simp at h
        obtain ⟨rfl, rfl⟩ := h
        have := ih hs
        simp [← this]
        omega

/-- One step of the `re.sub` scan in `process_table_line` (fix_tables.py lines
56-67).  The first argument is the scanner state: `none` when the scanner is
outside any span candidate, `some pending` when an opening backtick has been
seen and `pending` holds (in reverse) the non-backtick characters read since.
On a closing backtick with non-empty pending the span matched: it is emitted
as the backtick-wrapped `process_code_in_table` of its content and scanning
continues outside.  On a backtick with empty pending, the regex match at the
opener fails (the pattern requires one or more non-backtick characters), the
opener is emitted unchanged and the scanner retries with the current backtick
as the new opener.  At end of input an open candidate is unterminated: the
opener and pending characters are emitted unchanged. -/
def scanAux : Option (List Char) → List Char → List Char
  | none, [] => []
  | some pending, [] => btick :: pending.reverse
  | none, c :: rest =>
    if c = btick then scanAux (some []) rest
    else c :: scanAux none rest
  | some pending, c :: rest =>
    if c = btick then
      match pending with
      | [] => btick :: scanAux (some []) rest
      | _ :: _ => btick :: (process_code_in_table pending.reverse ++ btick :: scanAux none rest)
    else scanAux (some (c :: pending)) rest

/-- Translation of `process_table_line` from `fix_tables.py` (lines 46-67):
`re.sub` over the pattern "backtick, one or more non-backtick characters,
backtick", replacing each match by the backtick-wrapped
`process_code_in_table` of the captured content, scanning left to right. -/
def process_table_line (l : List Char) : List Char := scanAux none l

/-- Span extractor positions: mirrors `scanAux`, recording for every matched
span the position of its first content character and its length, in original
line coordinates.  The state is `some (s, n)` when an opening backtick has
been seen, with content starting at absolute position `s` and `n` characters
collected; the second argument is the absolute position of the next character. -/
def spansAux : Option (Nat × Nat) → Nat → List Char → List (Nat × Nat)
  | _, _, [] => []
  | none, i, c :: rest =>
    if c = btick then spansAux (some (i + 1, 0)) (i + 1) rest
    else spansAux none (i + 1) rest
  | some (s, n), i, c :: rest =>
    if c = btick then
      if n = 0 then spansAux (some (i + 1, 0)) (i + 1) rest
      else (s, n) :: spansAux none (i + 1) rest
    else spansAux (some (s, n + 1)) (i + 1) rest

/-- The list of matched code spans of a line, as (content start, content
length) pairs in line coordinates. -/
def spanList (l : List Char) : List (Nat × Nat) := spansAux none 0 l

example : process_table_line "| `a b` | `c# d` |".data =
    ('|' :: ' ' :: btick :: 'a' :: nbsp :: 'b' :: btick :: ' ' :: '|' :: ' ' ::
      btick :: 'c' :: '#' :: nbsp :: 'd' :: btick :: ' ' :: '|' :: []) := by decide

example : process_table_line "no backtick here x y".data = "no backtick here x y".data := by
  decide

example : process_table_line [btick, btick] = [btick, btick] := by decide

example : spanList [btick, btick] = [] := by decide

example : spanList "| `a b` | `c# d` |".data = [(3, 3), (11, 4)] := by decide

example : process_table_line (btick :: btick :: ' ' :: btick :: ' ' :: btick :: btick :: []) =
    (btick :: btick :: nbsp :: btick :: ' ' :: btick :: btick :: []) := by decide

theorem splitBt_none {l : List Char} : splitBt l = none ↔ btick ∉ l := by
  induction l with
  | nil => simp [splitBt]
  | cons c t ih =>
    by_cases hc : c = btick
    · simp [splitBt, hc]
    · have hcb : btick ≠ c := fun hh => hc hh.symm
      simp only [splitBt, if_neg hc]
      cases hs : splitBt t with
      | none => simp [List.mem_cons, hcb, ← ih, hs]
      | some p => simp [List.mem_cons, hs, hcb, ← ih]

theorem splitBt_some {l a b : List Char} (h : splitBt l = some (a, b)) :
    l = a ++ btick :: b ∧ btick ∉ a := by
  induction l generalizing a b with
  | nil => simp [splitBt] at h
  | cons c t ih =>
    by_cases hc : c = btick
    · simp [splitBt, hc] at h
      obtain ⟨rfl, rfl⟩ := h
      simp [hc]
    · simp only [splitBt, if_neg hc] at h
      cases hs : splitBt t with
      | none => rw [hs] at h; simp at h
      | some p =>
        rw [hs] at h
        obtain ⟨a', b'⟩ := p
        simp only [Option.some.injEq, Prod.mk.injEq] at h
        obtain ⟨rfl, rfl⟩ := h
        obtain ⟨rfl, hnb⟩ := ih hs
        exact ⟨by simp, by simp [hnb, Ne.symm hc]⟩

theorem scanAux_some_nil (p : List Char) : scanAux (some p) [] = btick :: p.reverse := rfl

theorem scanAux_none_cons {c : Char} (hc : c ≠ btick) (l : List Char) :
    scanAux none (c :: l) = c :: scanAux none l := by
  simp [scanAux, hc]

theorem scanAux_none_bt (l : List Char) : scanAux none (btick :: l) = scanAux (some []) l := by
  simp [scanAux]

theorem scanAux_some_cons {c : Char} (hc : c ≠ btick) (p l : List Char) :
    scanAux (some p) (c :: l) = scanAux (some (c :: p)) l := by
  simp [scanAux, hc]

theorem scanAux_some_adj (l : List Char) :
    scanAux (some []) (btick :: l) = btick :: scanAux (some []) l := by
  simp [scanAux]

theorem scanAux_some_close (q l : List Char) (hq : q ≠ []) :
    scanAux (some q) (btick :: l) =
      btick :: (process_code_in_table q.reverse ++ btick :: scanAux none l) := by
  cases q with
  | nil => exact absurd rfl hq
  | cons a as => simp [scanAux]

theorem scanAux_some_run {content : List Char} (h : btick ∉ content) (p l : List Char) :
    scanAux (some p) (content ++ l) = scanAux (some (content.reverse ++ p)) l := by
  induction content generalizing p with
  | nil => simp
  | cons c t ih =>
    simp only [List.mem_cons, not_or] at h
    rw [List.cons_append, scanAux_some_cons (fun hh => h.1 hh.symm) p (t ++ l), ih h.2]
    simp

theorem scanAux_some_nobt {l : List Char} (h : btick ∉ l) (p : List Char) :
    scanAux (some p) l = btick :: p.reverse ++ l := by
  have := scanAux_some_run h p []
  simp at this
  rw [this, scanAux_some_nil]
  simp

theorem ptl_nil : process_table_line [] = [] := rfl

theorem ptl_cons {c : Char} (hc : c ≠ btick) (l : List Char) :
    process_table_line (c :: l) = c :: process_table_line l := by
  unfold process_table_line
  exact scanAux_none_cons hc l

theorem ptl_nobt {l : List Char} (h : btick ∉ l) :
    process_table_line (btick :: l) = btick :: l := by
  unfold process_table_line
  rw [scanAux_none_bt, scanAux_some_nobt h]
  simp

theorem ptl_adj (l : List Char) :
    process_table_line (btick :: btick :: l) = btick :: process_table_line (btick :: l) := by
  unfold process_table_line
  rw [scanAux_none_bt, scanAux_some_adj, scanAux_none_bt]

theorem ptl_match {content : List Char} (h : btick ∉ content) (hne : content ≠ [])
    (l : List Char) :
    process_table_line (btick :: (content ++ btick :: l)) =
      btick :: (process_code_in_table content ++ btick :: process_table_line l) := by
  unfold process_table_line
  rw [scanAux_none_bt, scanAux_some_run h, scanAux_some_close]
  · simp
  · simp [hne]

/-- Case analysis principle following the scan of `process_table_line`: a line
is empty, starts with a non-backtick character, starts with an unterminated
backtick, starts with two adjacent backticks, or starts with a matched span. -/
theorem scan_ind (motive : List Char → Prop)
    (h1 : motive [])
    (h2 : ∀ c l, c ≠ btick → motive l → motive (c :: l))
    (h3 : ∀ l, btick ∉ l → motive (btick :: l))
    (h4 : ∀ l, motive (btick :: l) → motive (btick :: btick :: l))
    (h5 : ∀ content l, btick ∉ content → content ≠ [] → motive l →
      motive (btick :: (content ++ btick :: l))) :
    ∀ l, motive l := by
  have key : ∀ n (l : List Char), l.length ≤ n → motive l := by
    intro n
    induction n with
    | zero =>
      intro l hl
      rw [Nat.le_zero, List.length_eq_zero] at hl
      exact hl ▸ h1
    | succ n ih =>
      intro l hl
      match l with
      | [] => exact h1
      | c :: rest =>
        by_cases hc : c = btick
        · subst hc
          cases hs : splitBt rest with
          | none => exact h3 rest (splitBt_none.mp hs)
          | some p =>
            obtain ⟨a, b⟩ := p
            obtain ⟨rfl, hnb⟩ := splitBt_some hs
            cases a with
            | nil =>
              simp only [List.nil_append]
              simp only [List.nil_append, List.length_cons] at hl
              exact h4 b (ih (btick :: b) (by simp; omega))
            | cons x xs =>
              simp only [List.length_cons, List.length_append] at hl
              exact h5 (x :: xs) b hnb (by simp) (ih b (by omega))
        · simp only [List.length_cons] at hl
          exact h2 c rest hc (ih rest (by omega))
  exact fun l => key l.length l le_rfl

/-- Pointwise relation between an input character and the corresponding
output character of the space rewriter: a space maps to a space or an NBSP,
anything else maps to itself. -/
def spaceRel (a b : Char) : Prop :=
  (a = ' ' ∧ (b = ' ' ∨ b = nbsp)) ∨ (a ≠ ' ' ∧ b = a)

theorem nbspAll_rel (l : List Char) : List.Forall₂ spaceRel l (nbspAll l) := by
  induction l with
  | nil => simp [nbspAll]
  | cons c t ih =>
    refine List.Forall₂.cons ?_ ih
    by_cases hc : c = ' '
    · exact Or.inl ⟨hc, Or.inr (by simp [hc])⟩
    · exact Or.inr ⟨hc, by simp [hc]⟩

theorem nbspAll_length (l : List Char) : (nbspAll l).length = l.length :=
  List.length_map l _

theorem nbspAll_no_space (l : List Char) : ' ' ∉ nbspAll l := by
  intro hmem
  simp only [nbspAll, List.mem_map] at hmem
  obtain ⟨a, _, ha⟩ := hmem
  by_cases h : a = ' '
  · rw [if_pos h] at ha
    exact absurd ha (by decide)
  · rw [if_neg h] at ha
    exact h ha

theorem nbspAll_id {l : List Char} (h : ' ' ∉ l) : nbspAll l = l := by
  induction l with
  | nil => rfl
  | cons c t ih =>
    simp only [List.mem_cons, not_or] at h
    simp [nbspAll] at ih ⊢
    exact ⟨fun hc => absurd hc.symm h.1, ih h.2⟩

theorem hashIdx_lt {l : List Char} (h : '#' ∈ l) : hashIdx l < l.length := by
  induction l with
  | nil => simp at h
  | cons c t ih =>
    by_cases hc : c = '#'
    · simp [hashIdx, hc]
    · rcases List.mem_cons.mp h with h' | h'
      · exact absurd h'.symm hc
      · simp only [hashIdx, if_neg hc, List.length_cons]
        exact Nat.succ_lt_succ (ih h')

theorem hashIdx_get {l : List Char} (h : '#' ∈ l) : l[hashIdx l]? = some '#' := by
  induction l with
  | nil => simp at h
  | cons c t ih =>
    by_cases hc : c = '#'
    · simp [hashIdx, hc]
    · rcases List.mem_cons.mp h with h' | h'
      · exact absurd h'.symm hc
      · simp only [hashIdx, if_neg hc]
        simpa using ih h'

theorem hashIdx_take (l : List Char) : '#' ∉ l.take (hashIdx l) := by
  induction l with
  | nil => simp
  | cons c t ih =>
    by_cases hc : c = '#'
    · simp [hashIdx, hc]
    · simp only [hashIdx, if_neg hc, List.take_succ_cons, List.mem_cons, not_or]
      exact ⟨fun hh => hc hh.symm, ih⟩

theorem forall₂_getElem_some {R : Char → Char → Prop} :
    ∀ {l m : List Char}, List.Forall₂ R l m → ∀ (i : Nat) (a : Char), l[i]? = some a →
      ∃ b, m[i]? = some b ∧ R a b := by
  intro l m h
  induction h with
  | nil => intro i a ha; simp at ha
  | cons hr _ ih =>
    intro i a ha
    cases i with
    | zero =>
      rw [List.getElem?_cons_zero, Option.some_inj] at ha
      exact ⟨_, List.getElem?_cons_zero, ha ▸ hr⟩
    | succ n =>
      rw [List.getElem?_cons_succ] at ha
      obtain ⟨b, hb, hbr⟩ := ih n a ha
      exact ⟨b, by rw [List.getElem?_cons_succ]; exact hb, hbr⟩

theorem forall₂_mem_right {R : Char → Char → Prop} :
    ∀ {l m : List Char}, List.Forall₂ R l m → ∀ b ∈ m, ∃ a ∈ l, R a b := by
  intro l m h
  induction h with
  | nil => intro b hb; simp at hb
  | cons hr _ ih =>
    intro b hb
    rcases List.mem_cons.mp hb with rfl | hb'
    · exact ⟨_, List.mem_cons_self _ _, hr⟩
    · obtain ⟨a, ha, har⟩ := ih b hb'
      exact ⟨a, List.mem_cons_of_mem _ ha, har⟩

theorem pc_rel (l : List Char) : List.Forall₂ spaceRel l (process_code_in_table l) := by
  unfold process_code_in_table
  by_cases hmem : '#' ∈ l
  · rw [if_pos hmem]
    by_cases hcond : hashIdx l > 0 ∧ l[hashIdx l - 1]? = some ' '
    · rw [if_pos hcond]
      obtain ⟨hpos, hsp⟩ := hcond
      have hlt : hashIdx l < l.length := hashIdx_lt hmem
      have h1 : hashIdx l - 1 < l.length := by omega
      have hget : l[hashIdx l - 1] = ' ' := by
        rw [List.getElem?_eq_getElem h1] at hsp
        exact Option.some_inj.mp hsp
      have hdec : l.take (hashIdx l - 1) ++ ' ' :: l.drop (hashIdx l) = l := by
        conv_rhs => rw [← List.take_append_drop (hashIdx l - 1) l]
        congr 1
        rw [List.drop_eq_getElem_cons h1, hget]
        congr 2
        omega
      have frel : List.Forall₂ spaceRel
          (l.take (hashIdx l - 1) ++ ' ' :: l.drop (hashIdx l))
          (nbspAll (l.take (hashIdx l - 1)) ++ ' ' :: nbspAll (l.drop (hashIdx l))) :=
        List.rel_append (nbspAll_rel _)
          (List.Forall₂.cons (Or.inl ⟨rfl, Or.inl rfl⟩) (nbspAll_rel _))
      nth_rewrite 1 [← hdec]
      exact frel
    · rw [if_neg hcond]
      have frel : List.Forall₂ spaceRel
          (l.take (hashIdx l) ++ l.drop (hashIdx l))
          (nbspAll (l.take (hashIdx l)) ++ nbspAll (l.drop (hashIdx l))) :=
        List.rel_append (nbspAll_rel _) (nbspAll_rel _)
      nth_rewrite 1 [← List.take_append_drop (hashIdx l) l]
      exact frel
  · rw [if_neg hmem]
    exact nbspAll_rel l

theorem pc_length (l : List Char) : (process_code_in_table l).length = l.length :=
  (List.Forall₂.length_eq (pc_rel l)).symm

theorem pc_mem {l : List Char} {b : Char} (hb : b ∈ process_code_in_table l) :
    b = ' ' ∨ b = nbsp ∨ b ∈ l := by
  obtain ⟨a, ha, har⟩ := forall₂_mem_right (pc_rel l) b hb
  rcases har with ⟨_, hsp | hsp⟩ | ⟨_, rfl⟩
  · exact Or.inl hsp
  · exact Or.inr (Or.inl hsp)
  · exact Or.inr (Or.inr ha)

theorem pc_nobt {l : List Char} (h : btick ∉ l) : btick ∉ process_code_in_table l := by
  intro hb
  rcases pc_mem hb with h' | h' | h'
  · exact absurd h' (by decide)
  · exact absurd h' (by decide)
  · exact h h'

theorem nbspAll_hashIdx (l : List Char) : hashIdx (nbspAll l) = hashIdx l := by
  induction l with
  | nil => rfl
  | cons c t ih =>
    by_cases hc : c = ' '
    · have h1 : nbsp ≠ '#' := by decide
      have h2 : (' ' : Char) ≠ '#' := by decide
      simp [nbspAll, hashIdx, hc, h1, h2] at ih ⊢
      exact ih
    · simp only [nbspAll, List.map_cons, if_neg hc] at ih ⊢
      by_cases hh : c = '#'
      · simp [hashIdx, hh]
      · simp [hashIdx, hh] at ih ⊢
        exact ih

theorem nbspAll_hash_mem (l : List Char) : '#' ∈ nbspAll l ↔ '#' ∈ l := by
  simp only [nbspAll, List.mem_map]
  constructor
  · rintro ⟨a, ha, hfa⟩
    by_cases h : a = ' '
    · rw [if_pos h] at hfa
      exact absurd hfa (by decide)
    · rw [if_neg h] at hfa
      exact hfa ▸ ha
  · intro h
    exact ⟨'#', h, by decide⟩

theorem hashIdx_append {a : List Char} (h : '#' ∉ a) (b : List Char) :
    hashIdx (a ++ b) = a.length + hashIdx b := by
  induction a with
  | nil => simp
  | cons c t ih =>
    simp only [List.mem_cons, not_or] at h
    have hc : c ≠ '#' := fun hh => h.1 hh.symm
    simp only [List.cons_append, hashIdx, if_neg hc, List.length_cons, List.append_eq]
    rw [ih h.2]
    omega

theorem mem_of_getElem? {l : List Char} {i : Nat} {a : Char} (h : l[i]? = some a) : a ∈ l := by
  obtain ⟨hlt, rfl⟩ := List.getElem?_eq_some.mp h
  exact List.getElem_mem hlt

theorem nbspAll_idem (l : List Char) : nbspAll (nbspAll l) = nbspAll l :=
  nbspAll_id (nbspAll_no_space l)

theorem pc_idem (l : List Char) :
    process_code_in_table (process_code_in_table l) = process_code_in_table l := by
  by_cases hmem : '#' ∈ l
  · have hlt : hashIdx l < l.length := hashIdx_lt hmem
    have hgethash : l[hashIdx l] = '#' := by
      have := hashIdx_get hmem
      rw [List.getElem?_eq_getElem hlt] at this
      exact Option.some_inj.mp this
    have hdropl : l.drop (hashIdx l) = '#' :: l.drop (hashIdx l + 1) := by
      rw [List.drop_eq_getElem_cons hlt, hgethash]
    by_cases hcond : hashIdx l > 0 ∧ l[hashIdx l - 1]? = some ' '
    · have e1 : process_code_in_table l =
          nbspAll (l.take (hashIdx l - 1)) ++ ' ' :: nbspAll (l.drop (hashIdx l)) := by
        unfold process_code_in_table
        rw [if_pos hmem, if_pos hcond]
      rw [e1]
      set A := nbspAll (l.take (hashIdx l - 1)) with hA
      set B := nbspAll (l.drop (hashIdx l)) with hB
      have lenA : A.length = hashIdx l - 1 := by
        rw [hA, nbspAll_length, List.length_take]
        omega
      have hBhash : B = '#' :: nbspAll (l.drop (hashIdx l + 1)) := by
        rw [hB, hdropl]
        simp only [nbspAll, List.map_cons, if_neg (by decide : ¬('#' : Char) = ' ')]
      have hnotA : '#' ∉ A := by
        rw [hA]
        intro hh
        rw [nbspAll_hash_mem] at hh
        have htt : l.take (hashIdx l - 1) = (l.take (hashIdx l)).take (hashIdx l - 1) := by
          rw [List.take_take, Nat.min_eq_left (by omega)]
        rw [htt] at hh
        exact hashIdx_take l (List.mem_of_mem_take hh)
      have hhidx : hashIdx (A ++ ' ' :: B) = hashIdx l := by
        rw [hashIdx_append hnotA, lenA]
        have h1 : hashIdx (' ' :: B) = hashIdx B + 1 := by
          simp [hashIdx, (by decide : ¬(' ' : Char) = '#')]
        have h2 : hashIdx B = 0 := by rw [hBhash]; simp [hashIdx]
        rw [h1, h2]
        omega
      have hmem2 : '#' ∈ A ++ ' ' :: B := by
        apply List.mem_append_right
        rw [hBhash]
        simp
      have hget2 : (A ++ ' ' :: B)[hashIdx l - 1]? = some ' ' := by
        have hstep : (A ++ ' ' :: B)[hashIdx l - 1]? = (' ' :: B)[(hashIdx l - 1) - A.length]? :=
          List.getElem?_append_right (by omega)
        rw [hstep, lenA, Nat.sub_self, List.getElem?_cons_zero]
      have hcond2 : hashIdx (A ++ ' ' :: B) > 0 ∧
          (A ++ ' ' :: B)[hashIdx (A ++ ' ' :: B) - 1]? = some ' ' := by
        rw [hhidx]
        exact ⟨hcond.1, hget2⟩
      have e2 : process_code_in_table (A ++ ' ' :: B) =
          nbspAll ((A ++ ' ' :: B).take (hashIdx (A ++ ' ' :: B) - 1)) ++
            ' ' :: nbspAll ((A ++ ' ' :: B).drop (hashIdx (A ++ ' ' :: B))) := by
        unfold process_code_in_table
        rw [if_pos hmem2, if_pos hcond2]
      rw [e2, hhidx]
      have htake : (A ++ ' ' :: B).take (hashIdx l - 1) = A := List.take_left' lenA
      have hlen2 : (A ++ [' ']).length = hashIdx l := by
        simp only [List.length_append, lenA, List.length_cons, List.length_nil]
        omega
      have hdrop : (A ++ ' ' :: B).drop (hashIdx l) = B := by
        have hassoc : A ++ ' ' :: B = (A ++ [' ']) ++ B := by simp
        rw [hassoc]
        exact List.drop_left' hlen2
      rw [htake, hdrop, hA, hB, nbspAll_idem, nbspAll_idem]
    · have e1 : process_code_in_table l =
          nbspAll (l.take (hashIdx l)) ++ nbspAll (l.drop (hashIdx l)) := by
        unfold process_code_in_table
        rw [if_pos hmem, if_neg hcond]
      rw [e1]
      set A := nbspAll (l.take (hashIdx l)) with hA
      set B := nbspAll (l.drop (hashIdx l)) with hB
      have lenA : A.length = hashIdx l := by
        rw [hA, nbspAll_length, List.length_take]
        omega
      have hBhash : B = '#' :: nbspAll (l.drop (hashIdx l + 1)) := by
        rw [hB, hdropl]
        simp only [nbspAll, List.map_cons, if_neg (by decide : ¬('#' : Char) = ' ')]
      have hnotA : '#' ∉ A := by
        rw [hA]
        intro hh
        rw [nbspAll_hash_mem] at hh
        exact hashIdx_take l hh
      have hhidx : hashIdx (A ++ B) = hashIdx l := by
        rw [hashIdx_append hnotA, lenA]
        have h2 : hashIdx B = 0 := by rw [hBhash]; simp [hashIdx]
        omega
      have hmem2 : '#' ∈ A ++ B := by
        apply List.mem_append_right
        rw [hBhash]
        simp
      have hcond2 : ¬(hashIdx (A ++ B) > 0 ∧ (A ++ B)[hashIdx (A ++ B) - 1]? = some ' ') := by
        rintro ⟨hpos, hsp⟩
        rw [hhidx] at hpos hsp
        have hlt' : hashIdx l - 1 < A.length := by omega
        rw [List.getElem?_append_left hlt'] at hsp
        have : ' ' ∈ A := mem_of_getElem? hsp
        rw [hA] at this
        exact nbspAll_no_space _ this
      have e2 : process_code_in_table (A ++ B) =
          nbspAll ((A ++ B).take (hashIdx (A ++ B))) ++
            nbspAll ((A ++ B).drop (hashIdx (A ++ B))) := by
        unfold process_code_in_table
        rw [if_pos hmem2, if_neg hcond2]
      rw [e2, hhidx, List.take_left' lenA, List.drop_left' lenA, hA, hB, nbspAll_idem,
        nbspAll_idem]
  · have e1 : process_code_in_table l = nbspAll l := by
      unfold process_code_in_table
      rw [if_neg hmem]
    rw [e1]
    have hm2 : '#' ∉ nbspAll l := fun hh => hmem ((nbspAll_hash_mem l).mp hh)
    unfold process_code_in_table
    rw [if_neg hm2]
    exact nbspAll_idem l

theorem scan_some_head : ∀ (l p : List Char), ∃ X, scanAux (some p) l = btick :: X := by
  intro l
  induction l with
  | nil => exact fun p => ⟨p.reverse, rfl⟩
  | cons c t ih =>
    intro p
    by_cases hc : c = btick
    · subst hc
      cases p with
      | nil => exact ⟨scanAux (some []) t, scanAux_some_adj t⟩
      | cons q qs =>
        exact ⟨process_code_in_table (q :: qs).reverse ++ btick :: scanAux none t,
          scanAux_some_close (q :: qs) t (by simp)⟩
    · rw [scanAux_some_cons hc]
      exact ih (c :: p)

theorem ptl_head_bt (l : List Char) : ∃ X, process_table_line (btick :: l) = btick :: X := by
  unfold process_table_line
  rw [scanAux_none_bt]
  exact scan_some_head l []

theorem ptl_length (l : List Char) : (process_table_line l).length = l.length := by
  induction l using scan_ind with
  | h1 => rfl
  | h2 c l hc ih => rw [ptl_cons hc]; simp [ih]
  | h3 l h => rw [ptl_nobt h]
  | h4 l ih =>
    rw [ptl_adj]
    simp only [List.length_cons] at ih ⊢
    omega
  | h5 content l hnb hne ih =>
    rw [ptl_match hnb hne]
    simp only [List.length_cons, List.length_append, pc_length] at ih ⊢
    omega

theorem ptl_nobt_id {l : List Char} (h : btick ∉ l) : process_table_line l = l := by
  induction l with
  | nil => rfl
  | cons c t ih =>
    simp only [List.mem_cons, not_or] at h
    rw [ptl_cons (fun hh => h.1 hh.symm), ih h.2]

theorem ptl_idem (l : List Char) :
    process_table_line (process_table_line l) = process_table_line l := by
  induction l using scan_ind with
  | h1 => rfl
  | h2 c l hc ih => rw [ptl_cons hc, ptl_cons hc, ih]
  | h3 l h => rw [ptl_nobt h, ptl_nobt h]
  | h4 l ih =>
    obtain ⟨X, hX⟩ := ptl_head_bt l
    rw [ptl_adj, hX]
    rw [hX] at ih
    rw [ptl_adj, ih]
  | h5 content l hnb hne ih =>
    have hne2 : process_code_in_table content ≠ [] := by
      intro hh
      have := pc_length content
      rw [hh] at this
      simp at this
      exact hne (List.length_eq_zero.mp this.symm)
    rw [ptl_match hnb hne, ptl_match (pc_nobt hnb) hne2, pc_idem, ih]

theorem findIdx?_hash : ∀ l : List Char,
    l.findIdx? (fun c => c == '#') = if '#' ∈ l then some (hashIdx l) else none := by
  intro l
  induction l with
  | nil => simp
  | cons c t ih =>
    simp only [List.findIdx?_cons]
    by_cases hc : c = '#'
    · simp [hc, hashIdx]
    · have hcb : (c == '#') = false := by simp [hc]
      rw [hcb]
      simp only [Bool.false_eq_true, if_false, ih]
      by_cases hmem : '#' ∈ t
      · have hmm : '#' ∈ c :: t := List.mem_cons_of_mem c hmem
        simp [hmem, hmm, hashIdx, hc, ih]
      · have hmm : '#' ∉ c :: t := by
          rw [List.mem_cons, not_or]
          exact ⟨fun hh => hc hh.symm, hmem⟩
        simp [hmem, hmm, ih]

theorem pc_eq_specSpaceRewriter (content : List Char) :
    process_code_in_table content = specSpaceRewriter content := by
  unfold process_code_in_table specSpaceRewriter
  rw [findIdx?_hash]
  by_cases hmem : '#' ∈ content
  · simp only [if_pos hmem, nbspAll]
  · simp only [if_neg hmem, nbspAll]

/-- Python whitespace characters: the characters stripped by `str.strip()`
with no arguments (ASCII whitespace, the C1 separator controls, and the
Unicode space separators). -/
def pyWhitespace : List Char :=
  [' ', '\t', '\n', '\r', '\x0b', '\x0c', '\x1c', '\x1d', '\x1e', '\x1f',
    '\x85', '\xa0', '\u1680', '\u2000', '\u2001', '\u2002', '\u2003', '\u2004',
    '\u2005', '\u2006', '\u2007', '\u2008', '\u2009', '\u200a', '\u2028',
    '\u2029', '\u202f', '\u205f', '\u3000']

/-- A character is Python whitespace. -/
def isPySpace (c : Char) : Bool := pyWhitespace.contains c

/-- Python `line.strip()`: remove leading and trailing whitespace. -/
def pyStrip (l : List Char) : List Char :=
  ((l.dropWhile isPySpace).reverse.dropWhile isPySpace).reverse

/-- Python `line.strip().startswith('|')` from fix_tables.py line 92: the
line classification used by the processing loop. -/
def isTableLine (l : List Char) : Bool :=
  match pyStrip l with
  | [] => false
  | c :: _ => c = '|'

/-- Translation of the line loop of `process_markdown_file` (fix_tables.py
lines 87-101): a table line is processed by `process_table_line` and sets the
`in_table` flag; any other line is copied unchanged, and clears the flag
exactly when the flag is set and the stripped line is empty. -/
def processLinesAux : Bool → List (List Char) → List (List Char)
  | _, [] => []
  | inT, line :: rest =>
    if isTableLine line then
      process_table_line line :: processLinesAux true rest
    else
      line :: processLinesAux (if inT && (pyStrip line).isEmpty then false else inT) rest

/-- The whole-document transformation of `process_markdown_file`: the line
loop started with `in_table = False`. -/
def process_markdown_lines (lines : List (List Char)) : List (List Char) :=
  processLinesAux false lines

/-- Transition of the `in_table` flag as worded in the specification,
section 4.1: a table line sets it to true; a plain line clears it exactly
when it is set and the stripped line is empty; otherwise it is unchanged.
Used only to compare with the loop translated from the source. -/
def specNextInTable (inT : Bool) (line : List Char) : Bool :=
  if isTableLine line then true
  else if inT && (pyStrip line).isEmpty then false else inT

example : isTableLine "  | a | b |".data = true := by decide
example : isTableLine "plain text".data = false := by decide
example : isTableLine "".data = false := by decide
example : pyStrip "  x  ".data = ['x'] := by decide

theorem processLinesAux_eq_map : ∀ (inT : Bool) (lines : List (List Char)),
    processLinesAux inT lines =
      lines.map (fun l => if isTableLine l then process_table_line l else l) := by
  intro inT lines
  induction lines generalizing inT with
  | nil => rfl
  | cons line rest ih =>
    by_cases ht : isTableLine line
    · simp only [processLinesAux, if_pos ht, List.map_cons, ih]
    · simp only [processLinesAux, if_neg ht, List.map_cons, ih]

theorem processLinesAux_step (inT : Bool) (line : List Char) (rest : List (List Char)) :
    processLinesAux inT (line :: rest) =
      (if isTableLine line then process_table_line line else line) ::
        processLinesAux (specNextInTable inT line) rest := by
  by_cases ht : isTableLine line
  · simp only [processLinesAux, specNextInTable, if_pos ht]
  · simp only [processLinesAux, specNextInTable, if_neg ht]

theorem frame_main : ∀ rest : List Char,
    (∀ i j : Nat,
      (∀ s ∈ spansAux none i rest, ¬(s.1 ≤ i + j ∧ i + j < s.1 + s.2)) →
      (scanAux none rest)[j]? = rest[j]?) ∧
    (∀ (p : List Char) (b j : Nat),
      (∀ s ∈ spansAux (some (b + 1, p.length)) (b + 1 + p.length) rest,
        ¬(s.1 ≤ b + j ∧ b + j < s.1 + s.2)) →
      (scanAux (some p) rest)[j]? = (btick :: p.reverse ++ rest)[j]?) := by
  intro rest
  induction rest with
  | nil =>
    constructor
    · intro i j _
      rfl
    · intro p b j _
      simp [scanAux]
  | cons c t ih =>
    obtain ⟨ihn, ihs⟩ := ih
    constructor
    · intro i j hsp
      by_cases hc : c = btick
      · subst hc
        have hscan : scanAux none (btick :: t) = scanAux (some []) t := scanAux_none_bt t
        have hspans : spansAux none i (btick :: t) = spansAux (some (i + 1, 0)) (i + 1) t := by
          simp [spansAux]
        rw [hscan]
        have step := ihs [] i j ?hyp
        case hyp =>
          intro s hs
          have hs' : s ∈ spansAux none i (btick :: t) := by
            rw [hspans]
            simpa using hs
          exact hsp s hs'
        simpa using step
      · have hscan : scanAux none (c :: t) = c :: scanAux none t := scanAux_none_cons hc t
        have hspans : spansAux none i (c :: t) = spansAux none (i + 1) t := by
          simp [spansAux, hc]
        rw [hscan]
        cases j with
        | zero => simp
        | succ k =>
          simp only [List.getElem?_cons_succ]
          apply ihn (i + 1) k
          intro s hs
          have hs' : s ∈ spansAux none i (c :: t) := by rw [hspans]; exact hs
          have := hsp s hs'
          omega
    · intro p b j hsp
      by_cases hc : c = btick
      · subst hc
        cases p with
        | nil =>
          have hscan : scanAux (some []) (btick :: t) = btick :: scanAux (some []) t :=
            scanAux_some_adj t
          have hspans : spansAux (some (b + 1, ([] : List Char).length))
              (b + 1 + ([] : List Char).length) (btick :: t) =
              spansAux (some (b + 2, 0)) (b + 2) t := by
            simp [spansAux]
          rw [hscan]
          cases j with
          | zero => simp
          | succ k =>
            simp only [List.reverse_nil, List.nil_append, List.getElem?_cons_succ]
            have step := ihs [] (b + 1) k ?hyp
            case hyp =>
              intro s hs
              have hs' : s ∈ spansAux (some (b + 1, ([] : List Char).length))
                  (b + 1 + ([] : List Char).length) (btick :: t) := by
                rw [hspans]
                simpa using hs
              have := hsp s hs'
              omega
            simpa using step
        | cons q qs =>
          have hpne : (q :: qs) ≠ ([] : List Char) := by simp
          have hscan := scanAux_some_close (q :: qs) t hpne
          have hlen : (q :: qs).length ≠ 0 := by simp
          have hspans : spansAux (some (b + 1, (q :: qs).length))
              (b + 1 + (q :: qs).length) (btick :: t) =
              (b + 1, (q :: qs).length) ::
                spansAux none (b + 1 + (q :: qs).length + 1) t := by
            simp [spansAux, hlen]
          rw [hscan]
          have hhead := hsp (b + 1, (q :: qs).length) (by rw [hspans]; exact List.mem_cons_self _ _)
          simp only at hhead
          have hlenpc : (process_code_in_table (q :: qs).reverse).length = (q :: qs).length := by
            rw [pc_length, List.length_reverse]
          have hlenrev : ((q :: qs).reverse).length = (q :: qs).length := List.length_reverse _
          cases j with
          | zero => simp
          | succ k =>
            simp only [List.getElem?_cons_succ, List.cons_append, List.getElem?_cons_succ]
            have hk : (q :: qs).length ≤ k := by omega
            by_cases hkb : k = (q :: qs).length
            · subst hkb
              rw [List.getElem?_append_right
                (by omega : (process_code_in_table (q :: qs).reverse).length ≤ (q :: qs).length)]
              rw [List.getElem?_append_right
                (by omega : ((q :: qs).reverse).length ≤ (q :: qs).length)]
              rw [hlenpc, hlenrev, Nat.sub_self]
              simp
            · have hkgt : (q :: qs).length + 1 ≤ k := by omega
              rw [List.getElem?_append_right (by omega : (process_code_in_table (q :: qs).reverse).length ≤ k)]
              rw [List.getElem?_append_right (by omega : ((q :: qs).reverse).length ≤ k)]
              rw [hlenpc, hlenrev]
              have hsub : k - (q :: qs).length = (k - (q :: qs).length - 1) + 1 := by omega
              rw [hsub]
              simp only [List.getElem?_cons_succ]
              apply ihn (b + 1 + (q :: qs).length + 1) (k - (q :: qs).length - 1)
              intro s hs
              have hs' : s ∈ spansAux (some (b + 1, (q :: qs).length))
                  (b + 1 + (q :: qs).length) (btick :: t) := by
                rw [hspans]
                exact List.mem_cons_of_mem _ hs
              have := hsp s hs'
              omega
      · have hscan : scanAux (some p) (c :: t) = scanAux (some (c :: p)) t :=
          scanAux_some_cons hc p t
        have hspans : spansAux (some (b + 1, p.length)) (b + 1 + p.length) (c :: t) =
            spansAux (some (b + 1, p.length + 1)) (b + 1 + p.length + 1) t := by
          simp [spansAux, hc]
        rw [hscan]
        have step := ihs (c :: p) b j ?hyp
        case hyp =>
          intro s hs
          have hs' : s ∈ spansAux (some (b + 1, p.length)) (b + 1 + p.length) (c :: t) := by
            rw [hspans]
            simp only [List.length_cons] at hs
            rw [show b + 1 + (p.length + 1) = b + 1 + p.length + 1 from by omega] at hs
            exact hs
          exact hsp s hs'
        rw [step]
        congr 1
        simp

theorem ptl_frame (l : List Char) (j : Nat)
    (h : ∀ s ∈ spanList l, ¬(s.1 ≤ j ∧ j < s.1 + s.2)) :
    (process_table_line l)[j]? = l[j]? := by
  apply (frame_main l).1 0 j
  intro s hs
  have := h s hs
  omega

theorem spansAux_shift : ∀ (l : List Char) (d : Nat),
    (∀ i, spansAux none (i + d) l = (spansAux none i l).map (fun s => (s.1 + d, s.2))) ∧
    (∀ a n i, spansAux (some (a + d, n)) (i + d) l =
      (spansAux (some (a, n)) i l).map (fun s => (s.1 + d, s.2))) := by
  intro l d
  induction l with
  | nil =>
    constructor
    · intro i
      rfl
    · intro a n i
      rfl
  | cons c t ih =>
    obtain ⟨ihn, ihs⟩ := ih
    constructor
    · intro i
      by_cases hc : c = btick
      · subst hc
        simp only [spansAux, if_pos rfl]
        rw [show i + d + 1 = (i + 1) + d from by omega]
        have := ihs (i + 1) 0 (i + 1)
        rw [show (i + 1) + d = i + 1 + d from rfl] at this
        exact this
      · simp only [spansAux, if_neg hc]
        rw [show i + d + 1 = (i + 1) + d from by omega]
        exact ihn (i + 1)
    · intro a n i
      by_cases hc : c = btick
      · subst hc
        by_cases hn : n = 0
        · subst hn
          simp only [spansAux, if_pos rfl, if_pos rfl]
          rw [show i + d + 1 = (i + 1) + d from by omega]
          exact ihs (i + 1) 0 (i + 1)
        · simp only [spansAux, if_pos rfl, if_neg hn, List.map_cons, if_true]
          rw [show i + d + 1 = (i + 1) + d from by omega]
          rw [ihn (i + 1)]
      · simp only [spansAux, if_neg hc]
        rw [show i + d + 1 = (i + 1) + d from by omega]
        exact ihs a (n + 1) (i + 1)

theorem spansAux_run {content : List Char} (h : btick ∉ content) :
    ∀ (a n i : Nat) (l : List Char), spansAux (some (a, n)) i (content ++ l) =
      spansAux (some (a, n + content.length)) (i + content.length) l := by
  induction content with
  | nil =>
    intro a n i l
    simp
  | cons c t ih =>
    intro a n i l
    simp only [List.mem_cons, not_or] at h
    have hc : c ≠ btick := fun hh => h.1 hh.symm
    simp only [List.cons_append, spansAux, if_neg hc, List.append_eq]
    rw [ih h.2 a (n + 1) (i + 1) l]
    congr 1
    · congr 1
      simp
      omega
    · simp
      omega

theorem spanList_nobt {l : List Char} (h : btick ∉ l) : spanList l = [] := by
  unfold spanList
  have key : ∀ i, spansAux none i l = [] := by
    induction l with
    | nil => intro i; rfl
    | cons c t ih =>
      simp only [List.mem_cons, not_or] at h
      intro i
      simp only [spansAux, if_neg (fun hh => h.1 hh.symm : c ≠ btick)]
      exact ih h.2 (i + 1)
  exact key 0

theorem spanList_adj (rest : List Char) :
    spanList (btick :: btick :: rest) =
      (spanList (btick :: rest)).map (fun s => (s.1 + 1, s.2)) := by
  unfold spanList
  simp only [spansAux, if_pos rfl]
  have := (spansAux_shift rest 1).2 1 0 1
  rw [show 1 + 1 = 2 from rfl] at this
  exact this

theorem spanList_match {content : List Char} (h : btick ∉ content) (hne : content ≠ [])
    (rest : List Char) :
    spanList (btick :: (content ++ btick :: rest)) =
      (1, content.length) ::
        (spanList rest).map (fun s => (s.1 + (content.length + 2), s.2)) := by
  unfold spanList
  simp only [spansAux, if_pos rfl]
  rw [spansAux_run h 1 0 1 (btick :: rest)]
  simp only [Nat.zero_add]
  have hlen : content.length ≠ 0 := fun hz => hne (List.length_eq_zero.mp hz)
  simp only [spansAux, if_pos rfl, if_neg hlen, if_true]
  have hshift := (spansAux_shift rest (content.length + 2)).1 0
  rw [show (0 : Nat) + (content.length + 2) = 1 + content.length + 1 from by omega] at hshift
  rw [hshift]

theorem spanList_cons {c : Char} (hc : c ≠ btick) (l : List Char) :
    spanList (c :: l) = (spanList l).map (fun s => (s.1 + 1, s.2)) := by
  unfold spanList
  simp only [spansAux, if_neg hc]
  have := (spansAux_shift l 1).1 0
  rw [show 0 + 1 = 1 from rfl] at this
  exact this

theorem spansAux_some_empty {l : List Char} (h : btick ∉ l) :
    ∀ (a n i : Nat), spansAux (some (a, n)) i l = [] := by
  induction l with
  | nil =>
    intro a n i
    rfl
  | cons c t ih =>
    simp only [List.mem_cons, not_or] at h
    intro a n i
    simp only [spansAux, if_neg (fun hh => h.1 hh.symm : c ≠ btick)]
    exact ih h.2 a (n + 1) (i + 1)

theorem spanList_bt_nobt {l : List Char} (h : btick ∉ l) : spanList (btick :: l) = [] := by
  unfold spanList
  simp only [spansAux, if_pos rfl]
  exact spansAux_some_empty h 1 0 1

/-- Outcome of opening and reading the target file in `process_markdown_file`
(fix_tables.py lines 77-85): success with the file content as lines, a
`FileNotFoundError`, or any other reading exception with its message. -/
inductive ReadOutcome where
  | ok (lines : List (List Char))
  | notFound
  | readError (msg : String)

/-- Observable result of one run of `process_markdown_file`: the exit code
(0 for a normal return), whether opening the file for writing was attempted,
the content written on success, and the diagnostic lines. -/
structure RunResult where
  exitCode : Nat
  writeAttempted : Bool
  written : Option (List (List Char))
  stderrLine : Option String
  stdoutLine : Option String
  deriving DecidableEq

/-- Translation of `process_markdown_file` from `fix_tables.py` (lines
70-110) with the two I/O interactions abstracted as outcomes: `r` is the
outcome of opening and reading the file, and `w` is `none` when writing
succeeds or `some msg` when the write raises an exception with text `msg`.
On a read failure the function reports to standard error and exits with code
1 before any write is attempted; on a read success the lines are processed
and the write is attempted, reporting success to standard output or the
write error to standard error. -/
def process_markdown_file (filename : String) (r : ReadOutcome) (w : Option String) :
    RunResult :=
  match r with
  | .notFound =>
    { exitCode := 1, writeAttempted := false, written := none,
      stderrLine := some ("Error: File '" ++ filename ++ "' not found."),
      stdoutLine := none }
  | .readError e =>
    { exitCode := 1, writeAttempted := false, written := none,
      stderrLine := some ("Error reading file '" ++ filename ++ "': " ++ e),
      stdoutLine := none }
  | .ok lines =>
    match w with
    | none =>
      { exitCode := 0, writeAttempted := true,
        written := some (process_markdown_lines lines),
        stderrLine := none,
        stdoutLine := some ("Successfully processed '" ++ filename ++ "'") }
    | some e =>
      { exitCode := 1, writeAttempted := true, written := none,
        stderrLine := some ("Error writing file '" ++ filename ++ "': " ++ e),
        stdoutLine := none }

/-- C1: for every span content string, `process_code_in_table` implements the
three-branch policy of the specification's Space Rewriter: no hash means every
space becomes NBSP; a first hash immediately preceded by a space keeps that
one space as an ASCII space between the two NBSP-converted halves; otherwise
the two halves around the first hash are NBSP-converted and concatenated with
no inserted separator. -/
theorem C1_three_branch_policy : ∀ content : List Char,
    process_code_in_table content = specSpaceRewriter content :=
  pc_eq_specSpaceRewriter

/-- C2: on the span content "foo bar # baz" the character at the position of
the original space immediately before the hash (index 7) remains the ASCII
space 0x20, every other space (indices 3 and 9) becomes NBSP 0xA0, and the
result contains exactly one ordinary ASCII space. -/
theorem C2_comment_space_preservation :
    (process_code_in_table "foo bar # baz".data)[7]? = some ' ' ∧
    (process_code_in_table "foo bar # baz".data)[3]? = some nbsp ∧
    (process_code_in_table "foo bar # baz".data)[9]? = some nbsp ∧
    (process_code_in_table "foo bar # baz".data).count ' ' = 1 := by
  refine ⟨?_, ?_, ?_, ?_⟩ <;> decide

/-- C3 counterexample: on the span content "a # b # c" the code does not
return the claimed string (NBSP around every hash, written with u00A0
escapes below): the space before the first hash is preserved as an ASCII
space, not converted to NBSP. -/
theorem C3_counterexample :
    process_code_in_table "a # b # c".data ≠ "a\u00A0#\u00A0b\u00A0#\u00A0c".data := by
  decide

/-- C3 amended: on the span content "a # b # c" the first hash is the comment
boundary and the result is exactly the string written below: an ordinary
space is preserved only before the first hash, every other space (including
the ones around the second hash) becomes NBSP. -/
theorem C3_first_hash_boundary :
    process_code_in_table "a # b # c".data = "a #\u00A0b\u00A0#\u00A0c".data := by
  decide

/-- C4: the transformation is idempotent: `process_table_line` is idempotent
on every line, and hence the whole-document normalizer applied twice yields
the same output as applied once. -/
theorem C4_idempotent :
    (∀ line : List Char,
      process_table_line (process_table_line line) = process_table_line line) ∧
    (∀ doc : List (List Char),
      process_markdown_lines (process_markdown_lines doc) = process_markdown_lines doc) := by
  refine ⟨ptl_idem, ?_⟩
  intro doc
  unfold process_markdown_lines
  rw [processLinesAux_eq_map, processLinesAux_eq_map, List.map_map]
  apply List.map_congr_left
  intro l _
  simp only [Function.comp_apply]
  by_cases ht : isTableLine l
  · rw [if_pos ht]
    by_cases ht2 : isTableLine (process_table_line l)
    · rw [if_pos ht2, ptl_idem]
    · rw [if_neg ht2]
  · rw [if_neg ht, if_neg ht]

/-- C5 counterexample: two immediately adjacent backticks are not matched as
an empty span; on the two-character line of two backticks the extractor
produces no span at all (the regex requires one or more non-backtick
characters between the backticks). -/
theorem C5_counterexample : spanList [btick, btick] = [] := by
  decide

/-- C5 amended: the extractor matches, scanning left to right without
nesting, every pair of backticks enclosing a run of one or more non-backtick
characters.  Two immediately adjacent backticks are not matched: the first is
emitted unchanged and the second can open a later span; a backtick pair with
non-empty non-backtick content is matched, recorded as a span, and scanning
continues after the closing backtick; a backtick followed by no further
backtick matches nothing. -/
theorem C5_one_or_more_matching :
    (∀ rest : List Char,
      process_table_line (btick :: btick :: rest) =
        btick :: process_table_line (btick :: rest) ∧
      spanList (btick :: btick :: rest) =
        (spanList (btick :: rest)).map (fun s => (s.1 + 1, s.2))) ∧
    (∀ content rest : List Char, btick ∉ content → content ≠ [] →
      process_table_line (btick :: (content ++ btick :: rest)) =
        btick :: (process_code_in_table content ++ btick :: process_table_line rest) ∧
      spanList (btick :: (content ++ btick :: rest)) =
        (1, content.length) ::
          (spanList rest).map (fun s => (s.1 + (content.length + 2), s.2))) ∧
    (∀ l : List Char, btick ∉ l →
      process_table_line (btick :: l) = btick :: l ∧ spanList (btick :: l) = []) := by
  refine ⟨?_, ?_, ?_⟩
  · intro rest
    exact ⟨ptl_adj rest, spanList_adj rest⟩
  · intro content rest h hne
    exact ⟨ptl_match h hne rest, spanList_match h hne rest⟩
  · intro l h
    exact ⟨ptl_nobt h, spanList_bt_nobt h⟩

theorem C5_one_or_more_matching_witness :
    ((btick ∉ ['x', ' ', 'y']) ∧ (['x', ' ', 'y'] : List Char) ≠ []) ∧
    (process_table_line (btick :: (['x', ' ', 'y'] ++ btick :: [' '])) =
      btick :: (process_code_in_table ['x', ' ', 'y'] ++ btick :: process_table_line [' ']) ∧
    spanList (btick :: (['x', ' ', 'y'] ++ btick :: [' '])) =
      (1, (['x', ' ', 'y'] : List Char).length) ::
        (spanList [' ']).map (fun s => (s.1 + ((['x', ' ', 'y'] : List Char).length + 2), s.2))) :=
  ⟨⟨by decide, by decide⟩,
    C5_one_or_more_matching.2.1 ['x', ' ', 'y'] [' '] (by decide) (by decide)⟩

/-- C6: `process_table_line` changes characters only strictly inside matched
code spans: the output has the same length as the input, and at every
position that lies inside no matched span (delimiting backticks, inter-span
text, text after an unmatched backtick, and every position of a line with no
matched span) the output character equals the input character. -/
theorem C6_frame : ∀ l : List Char,
    (process_table_line l).length = l.length ∧
    ∀ j : Nat, (∀ s ∈ spanList l, ¬(s.1 ≤ j ∧ j < s.1 + s.2)) →
      (process_table_line l)[j]? = l[j]? :=
  fun l => ⟨ptl_length l, fun j h => ptl_frame l j h⟩

theorem C6_frame_witness :
    (∀ s ∈ spanList "| `a b` | x".data, ¬(s.1 ≤ 7 ∧ 7 < s.1 + s.2)) ∧
    (process_table_line "| `a b` | x".data)[7]? = "| `a b` | x".data[7]? :=
  ⟨by decide, (C6_frame "| `a b` | x".data).2 7 (by decide)⟩

/-- C7: every line whose stripped form does not start with a pipe character
passes through the line loop unchanged, at the same position, whatever the
current `in_table` state is. -/
theorem C7_plain_passthrough :
    ∀ (inT : Bool) (lines : List (List Char)) (i : Nat) (line : List Char),
      lines[i]? = some line → isTableLine line = false →
      (processLinesAux inT lines)[i]? = some line ∧
      (process_markdown_lines lines)[i]? = some line := by
  have key : ∀ (inT : Bool) (lines : List (List Char)) (i : Nat) (line : List Char),
      lines[i]? = some line → isTableLine line = false →
      (processLinesAux inT lines)[i]? = some line := by
    intro inT lines i line hget hclass
    rw [processLinesAux_eq_map, List.getElem?_map, hget]
    simp [hclass]
  intro inT lines i line hget hclass
  exact ⟨key inT lines i line hget hclass, key false lines i line hget hclass⟩

theorem C7_plain_passthrough_witness :
    ((["plain text".data] : List (List Char))[0]? = some "plain text".data ∧
      isTableLine "plain text".data = false) ∧
    (processLinesAux true ["plain text".data])[0]? = some "plain text".data :=
  ⟨⟨by decide, by decide⟩,
    (C7_plain_passthrough true ["plain text".data] 0 "plain text".data
      (by decide) (by decide)).1⟩

/-- C8: the line loop advances its `in_table` flag exactly by the transition
of the specification (true on a table line, false on a plain line exactly
when the flag is set and the stripped line is empty, unchanged otherwise),
and the flag has no effect on the output: for every initial flag value the
loop equals the stateless per-line map. -/
theorem C8_flag_vestigial :
    (∀ (inT : Bool) (line : List Char) (rest : List (List Char)),
      processLinesAux inT (line :: rest) =
        (if isTableLine line then process_table_line line else line) ::
          processLinesAux (specNextInTable inT line) rest) ∧
    (∀ (inT : Bool) (lines : List (List Char)),
      processLinesAux inT lines =
        lines.map (fun l => if isTableLine l then process_table_line l else l)) :=
  ⟨processLinesAux_step, processLinesAux_eq_map⟩

/-- C9: when the file cannot be opened for reading the program writes an
error message naming the file to standard error and exits with code 1
without attempting the write, so the target file is not modified; this holds
both for a missing file and for any other read error. -/
theorem C9_read_failure : ∀ (filename : String) (w : Option String),
    ((process_markdown_file filename .notFound w).exitCode = 1 ∧
      (process_markdown_file filename .notFound w).writeAttempted = false ∧
      (process_markdown_file filename .notFound w).written = none ∧
      (process_markdown_file filename .notFound w).stderrLine =
        some ("Error: File '" ++ filename ++ "' not found.")) ∧
    (∀ e : String,
      (process_markdown_file filename (.readError e) w).exitCode = 1 ∧
      (process_markdown_file filename (.readError e) w).writeAttempted = false ∧
      (process_markdown_file filename (.readError e) w).written = none ∧
      (process_markdown_file filename (.readError e) w).stderrLine =
        some ("Error reading file '" ++ filename ++ "': " ++ e)) :=
  fun _ _ => ⟨⟨rfl, rfl, rfl, rfl⟩, fun _ => ⟨rfl, rfl, rfl, rfl⟩⟩

/-- C10: `process_code_in_table` returns a string of exactly the input's
length in which every position holding a non-space input character holds the
same character, and every position holding an input space holds either a
space or an NBSP; nothing is inserted, removed, or otherwise rewritten. -/
theorem C10_character_preservation : ∀ l : List Char,
    (process_code_in_table l).length = l.length ∧
    ∀ (i : Nat) (c : Char), l[i]? = some c →
      (c ≠ ' ' → (process_code_in_table l)[i]? = some c) ∧
      (c = ' ' → (process_code_in_table l)[i]? = some ' ' ∨
        (process_code_in_table l)[i]? = some nbsp) := by
  intro l
  refine ⟨pc_length l, ?_⟩
  intro i c hc
  obtain ⟨b, hb, hrel⟩ := forall₂_getElem_some (pc_rel l) i c hc
  constructor
  · intro hne
    rcases hrel with ⟨hsp, _⟩ | ⟨_, rfl⟩
    · exact absurd hsp hne
    · exact hb
  · intro hsp
    rcases hrel with ⟨_, h' | h'⟩ | ⟨hne, _⟩
    · exact Or.inl (h' ▸ hb)
    · exact Or.inr (h' ▸ hb)
    · exact absurd hsp hne

theorem C10_character_preservation_witness :
    ("a b".data[1]? = some ' ') ∧
    ((process_code_in_table "a b".data)[1]? = some ' ' ∨
      (process_code_in_table "a b".data)[1]? = some nbsp) :=
  ⟨by decide, ((C10_character_preservation "a b".data).2 1 ' ' (by decide)).2 rfl⟩
